import Mathlib

/-!
Shallow embedding of the Huffman codec in `src/huffman.cpp` and proofs about it.

Conventions of the embedding:
* bytes are `Nat` values (the source reads `char`s from binary streams; all
  stream contents are byte values 0–255);
* the C++ `std::string` bit strings built from the characters `'0'`/`'1'`
  (leaf codes, the packed/unpacked bit stream) are embedded as `List Bool`
  (`false` = `'0'`, `true` = `'1'`); the source only ever stores those two
  characters in them, so the `else continue` arm of the decode walk
  (huffman.cpp:208) is dead code for streams the program itself builds;
* the byte streams written with `<<`/`put` and read with `get`/`peek` are
  embedded as `List Nat`, written by appending and read from the front;
* fallible operations return `Except CodecError`, one constructor per
  `cerr`-and-return error path of the source;
* `std::unordered_map` iteration order and `std::priority_queue` tie order
  are implementation-defined in C++.  The embedding fixes them to
  first-occurrence order and leftmost-minimum respectively.  Where a theorem
  below depends on a concrete tree it uses inputs whose node weights are
  pairwise distinct (or a single symbol), for which every admissible order
  yields the same tree, so no conclusion depends on this choice; the absence
  of a tie-break in the source's comparator is itself recorded by a theorem.
-/

namespace Huffman

/-- The `Node` class (huffman.cpp:23–31).  `nil` models the C++ null pointer,
`node ch freq left right` a heap-allocated node. -/
inductive Node where
  | nil : Node
  | node (ch : Nat) (freq : Nat) (left : Node) (right : Node) : Node
deriving DecidableEq

/-- `node->freq` (0 for the null pointer, which the source never dereferences). -/
def Node.freq : Node → Nat
  | .nil => 0
  | .node _ f _ _ => f

/-- `node->ch`. -/
def Node.ch : Node → Nat
  | .nil => 0
  | .node c _ _ _ => c

/-- `node->left`. -/
def Node.left : Node → Node
  | .nil => .nil
  | .node _ _ l _ => l

/-- `node->right`. -/
def Node.right : Node → Node
  | .nil => .nil
  | .node _ _ _ r => r

/-- The priority-queue comparator `Compare` (huffman.cpp:33–37):
`a->freq > b->freq` and nothing else.  `std::priority_queue` with this
comparator pops a minimum-frequency node; ties are implementation-defined. -/
def Compare (a b : Node) : Bool := b.freq < a.freq

/-- One error constructor per `cerr`-and-return failure path of the codec
(file-open failures are the shell's concern and are not modelled):
* `emptyInput`: "Input file is empty or unreadable." (huffman.cpp:108)
* `treeReadFail`: "Failed to read Huffman tree from file." (huffman.cpp:176)
* `eofAfterTree`: "Unexpected end of file or read error after tree."
  (huffman.cpp:185)
* `nullDeref`: the decode walk steps into a null child and then dereferences
  it (huffman.cpp:209), undefined behaviour in the C++; the embedding marks
  it with this value. -/
inductive CodecError where
  | emptyInput
  | treeReadFail
  | eofAfterTree
  | nullDeref
deriving DecidableEq

/-- `freqMap[ch]++` on an association list: increment the count of `ch`,
inserting it with count 1 on first occurrence (huffman.cpp:104). -/
def bump : List (Nat × Nat) → Nat → List (Nat × Nat)
  | [], c => [(c, 1)]
  | (k, v) :: rest, c => if k = c then (k, v + 1) :: rest else (k, v) :: bump rest c

/-- The frequency map built by `while (in.get(ch)) freqMap[ch]++`
(huffman.cpp:102–104), with `unordered_map`'s unspecified iteration order
fixed to first-occurrence order. -/
def countFreq (input : List Nat) : List (Nat × Nat) := input.foldl bump []

/-- `pq.top(); pq.pop()` for the queue ordered by `Compare`: remove a node of
minimal frequency (the leftmost one — C++ leaves the tie choice unspecified). -/
def popMin : List Node → Option (Node × List Node)
  | [] => none
  | t :: ts =>
    match popMin ts with
    | none => some (t, [])
    | some (m, rest) => if t.freq ≤ m.freq then some (t, ts) else some (m, t :: rest)

/-- The merge loop `while (pq.size() > 1)` (huffman.cpp:116–123): pop the two
lowest-frequency nodes, push `Node('\0', left->freq + right->freq)` with them
as left and right child.  `fuel` bounds the number of iterations; each
iteration shrinks the queue by one, so `fuel = q.length` always suffices. -/
def huffLoopF : Nat → List Node → List Node
  | 0, q => q
  | fuel + 1, q =>
    if q.length ≤ 1 then q
    else
      match popMin q with
      | none => q
      | some (a, q1) =>
        match popMin q1 with
        | none => q
        | some (b, q2) => huffLoopF fuel (q2 ++ [Node.node 0 (a.freq + b.freq) a b])

/-- `for (auto& pair : freqMap) pq.push(new Node(pair.first, pair.second))`
(huffman.cpp:114). -/
def initialQueue (freq : List (Nat × Nat)) : List Node :=
  freq.map fun p => Node.node p.1 p.2 .nil .nil

/-- `root = pq.top()` after the merge loop (huffman.cpp:125): the single
remaining node (for a non-empty input the loop always ends with exactly one). -/
def huffTreeOf (input : List Nat) : Node :=
  match huffLoopF (countFreq input).length (initialQueue (countFreq input)) with
  | [t] => t
  | _ => .nil

/-- `huffmanCode[node->ch] = str`: `unordered_map` assignment on an
association list — overwrite the entry if the key is present, append it
otherwise. -/
def mapInsert : List (Nat × List Bool) → Nat → List Bool → List (Nat × List Bool)
  | [], k, v => [(k, v)]
  | (k', v') :: rest, k, v =>
    if k' = k then (k, v) :: rest else (k', v') :: mapInsert rest k v

/-- `buildCode` (huffman.cpp:45–54): record the root-to-leaf path of every
leaf in the code map, `'0'`/`false` on a left descent, `'1'`/`true` on a
right descent.  The `treeNodes`/`maxDepth` statistics counters mutated there
are pure reporting state and are not modelled. -/
def buildCode : Node → List Bool → List (Nat × List Bool) → List (Nat × List Bool)
  | .nil, _, m => m
  | .node c _ l r, str, m =>
    let m1 := if l = .nil ∧ r = .nil then mapInsert m c str else m
    let m2 := buildCode l (str ++ [false]) m1
    buildCode r (str ++ [true]) m2

/-- `huffmanCode[ch]` on the read side (huffman.cpp:138): `operator[]`
default-constructs the empty string for a missing key (which never happens
for the tree built from the input's own frequency map). -/
def mapFind : List (Nat × List Bool) → Nat → List Bool
  | [], _ => []
  | (k, v) :: rest, c => if k = c then v else mapFind rest c

/-- `writeTree` (huffman.cpp:56–65) with the output stream threaded through:
a leaf writes the byte `'1'` (49) then its raw symbol byte; an inner node
writes the byte `'0'` (48) then its left and right subtrees. -/
def writeTree : Node → List Nat → List Nat
  | .nil, out => out
  | .node c _ l r, out =>
    if l = .nil ∧ r = .nil then out ++ [49, c]
    else writeTree r (writeTree l (out ++ [48]))

/-- The packing loop (huffman.cpp:143–147): split the bit string into chunks
of 8 and emit each chunk as one byte, most significant bit first
(`bitset<8>(byteStr).to_ulong()`).  `k` counts the bits accumulated in `acc`
for the current chunk; a final short chunk (possible only for a bit string
whose length is not a multiple of 8) is emitted with its accumulated value,
matching `bitset`'s short-string semantics. -/
def packAux : List Bool → Nat → Nat → List Nat
  | [], 0, _ => []
  | [], _ + 1, acc => [acc]
  | b :: bs, k, acc =>
    let acc' := 2 * acc + (if b then 1 else 0)
    if k = 7 then acc' :: packAux bs 0 0 else packAux bs (k + 1) acc'

/-- The packed payload bytes of a bit string. -/
def packBytes (bits : List Bool) : List Nat := packAux bits 0 0

/-- `bitset<8>(byte).to_string()` (huffman.cpp:192–193): the 8 bits of a
byte, most significant first. -/
def bitsOfByte (b : Nat) : List Bool :=
  [b.testBit 7, b.testBit 6, b.testBit 5, b.testBit 4,
   b.testBit 3, b.testBit 2, b.testBit 1, b.testBit 0]

/-- `readTree` (huffman.cpp:67–81), fuelled so that it is structurally
recursive (each recursive call consumes at least the already-read shape byte,
so `fuel = length of the stream` always suffices; see `readTreeF_ge`).
A failed `get` returns the null pointer: at the top of the stream that is
`(.nil, [])`; note the source then *embeds* inner null results as children of
the node under construction instead of propagating the failure.  A byte equal
to `'1'` (49) starts a leaf whose symbol is the next raw byte; any other byte
starts an internal node. -/
def readTreeF : Nat → List Nat → Node × List Nat
  | _, [] => (.nil, [])
  | 0, l => (.nil, l)
  | fuel + 1, b :: rest =>
    if b = 49 then
      match rest with
      | [] => (.nil, [])
      | c :: rest2 => (.node c 0 .nil .nil, rest2)
    else
      (.node 0 0 (readTreeF fuel rest).1 (readTreeF fuel (readTreeF fuel rest).2).1,
        (readTreeF fuel (readTreeF fuel rest).2).2)

/-- `root = readTree(in)` on a byte stream, returning the tree and the
unconsumed remainder of the stream. -/
def readTree (l : List Nat) : Node × List Nat := readTreeF l.length l

/-- The framing block of `decompress` (huffman.cpp:174–188): read the tree,
fail if it is null; peek and consume one byte iff it equals `'\n'` (10);
then read the pad-count byte, failing at end of stream.  Returns the tree,
the pad count and the remaining payload bytes. -/
def readFraming (art : List Nat) : Except CodecError (Node × Nat × List Nat) :=
  if (readTree art).1 = .nil then .error .treeReadFail
  else
    match (match (readTree art).2 with | 10 :: r => r | r => r) with
    | [] => .error .eofAfterTree
    | e :: payload => .ok ((readTree art).1, e, payload)

/-- The decode walk (huffman.cpp:204–213): follow `'0'`/`false` to the left
child and `'1'`/`true` to the right child; on reaching a node with two null
children emit its symbol and restart from the root.  Stepping onto a null
child and then testing its children is a null-pointer dereference in the C++
(undefined behaviour), modelled as `none`. -/
def walkBits (root : Node) : Node → List Bool → Option (List Nat)
  | _, [] => some []
  | cur, b :: bs =>
    match (if b then cur.right else cur.left) with
    | .nil => none
    | .node c f l r =>
      if l = .nil ∧ r = .nil then
        match walkBits root root bs with
        | none => none
        | some out => some (c :: out)
      else walkBits root (.node c f l r) bs

/-- `decompress` (huffman.cpp:167–228) as a function on the artifact bytes:
framing, then `bitString` from the payload bytes, then
`if (extraBits > 0 && extraBits <= 8 && bitString.size() >= extraBits)` drop
the last `extraBits` bits (`substr(0, size - extraBits)`), then the decode
walk.  Note the guard silently *skips* the drop when it fails; it never
reports an error. -/
def decompress (art : List Nat) : Except CodecError (List Nat) :=
  match readFraming art with
  | .error e => .error e
  | .ok (root, extraBits, payload) =>
    let bitString := payload.flatMap bitsOfByte
    let bits :=
      if 0 < extraBits ∧ extraBits ≤ 8 ∧ extraBits ≤ bitString.length then
        bitString.take (bitString.length - extraBits)
      else bitString
    match walkBits root root bits with
    | none => .error .nullDeref
    | some out => .ok out

/-- The serialized tree bytes `writeTree(root, out)` writes for a given
input (huffman.cpp:134). -/
def treeBytesOf (input : List Nat) : List Nat := writeTree (huffTreeOf input) []

/-- The code table `buildCode(root, "")` builds for a given input
(huffman.cpp:126). -/
def codeTableOf (input : List Nat) : List (Nat × List Bool) :=
  buildCode (huffTreeOf input) [] []

/-- `while (in.get(ch)) encoded += huffmanCode[ch]` (huffman.cpp:138): the
concatenation of the codes of the input bytes in order. -/
def encodedOf (input : List Nat) : List Bool :=
  input.flatMap fun c => mapFind (codeTableOf input) c

/-- `extraBits = (8 - (encoded.size() % 8)) % 8` (huffman.cpp:140). -/
def padCountOf (input : List Nat) : Nat := (8 - (encodedOf input).length % 8) % 8

/-- The packed payload: the encoded bit string padded with `extraBits`
trailing `'0'` bits and packed 8 bits per byte (huffman.cpp:141–147). -/
def payloadOf (input : List Nat) : List Nat :=
  packBytes (encodedOf input ++ List.replicate (padCountOf input) false)

/-- `compress` (huffman.cpp:94–165) as a function on the input bytes.  An
empty frequency map is the "Input file is empty or unreadable." error path
(huffman.cpp:107–111); otherwise the artifact is written as: the serialized
tree (line 134), the byte `'\n'` = 10 (line 135), the pad-count byte
(line 142) and the packed payload bytes (lines 143–147).  The verbose
statistics block (lines 152–164) only prints and is not modelled. -/
def compress (input : List Nat) : Except CodecError (List Nat) :=
  if countFreq input = [] then .error .emptyInput
  else .ok (treeBytesOf input ++ [10] ++ [padCountOf input] ++ payloadOf input)

/-- `prefB c1 c2` decides whether the bit string `c1` is an initial segment
of the bit string `c2`. -/
def prefB : List Bool → List Bool → Bool
  | [], _ => true
  | _ :: _, [] => false
  | a :: xs, b :: ys => if a = b then prefB xs ys else false

/-- Specification view of `buildCode`: the list of (symbol, root-to-leaf
path) pairs of a tree, used to reason about the entries of the code map. -/
def codesOf : Node → List Bool → List (Nat × List Bool)
  | .nil, _ => []
  | .node c _ l r, s =>
    (if l = .nil ∧ r = .nil then [(c, s)] else [])
      ++ codesOf l (s ++ [false]) ++ codesOf r (s ++ [true])

/-- The tree `readTree` reconstructs from a serialized tree: same shape and
leaf symbols, frequencies zeroed and internal symbols zeroed (the source
stores `'\0'` there anyway). -/
def shapeOf : Node → Node
  | .nil => .nil
  | .node c _ .nil .nil => .node c 0 .nil .nil
  | .node _ _ l r => .node 0 0 (shapeOf l) (shapeOf r)

/-- A tree the compressor can build: a single leaf, or an internal node both
of whose children are well-formed (in particular non-null). -/
def wellFormed : Node → Bool
  | .nil => false
  | .node _ _ .nil .nil => true
  | .node _ _ l r => wellFormed l && wellFormed r

/-! ### Frequency map and tree-builder lemmas -/

lemma bump_ne_nil (m : List (Nat × Nat)) (c : Nat) : bump m c ≠ [] := by
  cases m with
  | nil => simp [bump]
  | cons p rest =>
    obtain ⟨k, v⟩ := p
    simp only [bump]
    split <;> simp

lemma foldl_bump_ne_nil (l : List Nat) :
    ∀ m : List (Nat × Nat), m ≠ [] → l.foldl bump m ≠ [] := by
  induction l with
  | nil => intro m h; simpa using h
  | cons a l ih => intro m _; exact ih (bump m a) (bump_ne_nil m a)

lemma countFreq_ne_nil (input : List Nat) (h : input ≠ []) : countFreq input ≠ [] := by
  cases input with
  | nil => exact absurd rfl h
  | cons c rest =>
    simp only [countFreq, List.foldl_cons]
    exact foldl_bump_ne_nil rest (bump [] c) (bump_ne_nil [] c)

lemma popMin_some (q : List Node) (h : q ≠ []) : ∃ a q1, popMin q = some (a, q1) := by
  cases q with
  | nil => exact absurd rfl h
  | cons t ts =>
    simp only [popMin]
    cases hp : popMin ts with
    | none => exact ⟨t, [], rfl⟩
    | some p =>
      obtain ⟨m, rest⟩ := p
      by_cases hle : t.freq ≤ m.freq
      · exact ⟨t, ts, by simp [hle]⟩
      · exact ⟨m, t :: rest, by simp [hle]⟩

lemma popMin_none (q : List Node) (h : popMin q = none) : q = [] := by
  cases q with
  | nil => rfl
  | cons t ts =>
    obtain ⟨a, q1, hq⟩ := popMin_some (t :: ts) (by simp)
    rw [hq] at h
    cases h

lemma popMin_length :
    ∀ (q : List Node) (a : Node) (q1 : List Node),
      popMin q = some (a, q1) → q1.length + 1 = q.length := by
  intro q
  induction q with
  | nil => intro a q1 h; cases h
  | cons t ts ih =>
    intro a q1 h
    simp only [popMin] at h
    cases hp : popMin ts with
    | none =>
      rw [hp] at h
      cases h
      have : ts = [] := popMin_none ts hp
      simp [this]
    | some p =>
      obtain ⟨m, rest⟩ := p
      rw [hp] at h
      by_cases hle : t.freq ≤ m.freq
      · simp only [if_pos hle, Option.some.injEq, Prod.mk.injEq] at h
        rw [← h.2]
        simp
      · simp only [if_neg hle, Option.some.injEq, Prod.mk.injEq] at h
        rw [← h.2]
        have := ih m rest hp
        simp only [List.length_cons]
        omega

lemma popMin_mem :
    ∀ (q : List Node) (a : Node) (q1 : List Node),
      popMin q = some (a, q1) → a ∈ q ∧ ∀ x ∈ q1, x ∈ q := by
  intro q
  induction q with
  | nil => intro a q1 h; cases h
  | cons t ts ih =>
    intro a q1 h
    simp only [popMin] at h
    cases hp : popMin ts with
    | none =>
      rw [hp] at h
      cases h
      exact ⟨List.mem_cons_self _ _, by intro x hx; cases hx⟩
    | some p =>
      obtain ⟨m, rest⟩ := p
      rw [hp] at h
      by_cases hle : t.freq ≤ m.freq
      · simp only [if_pos hle, Option.some.injEq, Prod.mk.injEq] at h
        rw [← h.1, ← h.2]
        exact ⟨List.mem_cons_self _ _, fun x hx => List.mem_cons_of_mem _ hx⟩
      · simp only [if_neg hle, Option.some.injEq, Prod.mk.injEq] at h
        obtain ⟨hm, hmem⟩ := ih m rest hp
        rw [← h.1, ← h.2]
        constructor
        · exact List.mem_cons_of_mem _ hm
        · intro x hx
          rcases List.mem_cons.mp hx with hx | hx
          · rw [hx]; exact List.mem_cons_self _ _
          · exact List.mem_cons_of_mem _ (hmem x hx)

lemma wf_ne_nil {t : Node} (h : wellFormed t = true) : t ≠ .nil := by
  intro he
  rw [he] at h
  simp [wellFormed] at h

lemma wf_node {a b : Node} (c f : Nat) (ha : wellFormed a = true) (hb : wellFormed b = true) :
    wellFormed (Node.node c f a b) = true := by
  cases a with
  | nil => simp [wellFormed] at ha
  | node ca fa la ra =>
    cases b with
    | nil => simp [wellFormed] at hb
    | node cb fb lb rb => simp [wellFormed, ha, hb]

lemma huffLoopF_single :
    ∀ (fuel : Nat) (q : List Node), q ≠ [] → q.length ≤ fuel + 1 →
      (∀ x ∈ q, wellFormed x = true) →
      ∃ t, huffLoopF fuel q = [t] ∧ wellFormed t = true := by
  intro fuel
  induction fuel with
  | zero =>
    intro q hne hlen hwf
    match q with
    | [] => exact absurd rfl hne
    | [t] => exact ⟨t, rfl, hwf t (by simp)⟩
    | t1 :: t2 :: ts => simp at hlen
  | succ fuel ih =>
    intro q hne hlen hwf
    by_cases h1 : q.length ≤ 1
    · match q with
      | [] => exact absurd rfl hne
      | [t] => exact ⟨t, by simp [huffLoopF], hwf t (by simp)⟩
      | t1 :: t2 :: ts => simp at h1
    · obtain ⟨a, q1, hp1⟩ := popMin_some q hne
      have hl1 : q1.length + 1 = q.length := popMin_length q a q1 hp1
      have hq1ne : q1 ≠ [] := by
        intro he
        rw [he] at hl1
        simp at hl1
        omega
      obtain ⟨b, q2, hp2⟩ := popMin_some q1 hq1ne
      have hl2 : q2.length + 1 = q1.length := popMin_length q1 b q2 hp2
      have hm1 := popMin_mem q a q1 hp1
      have hm2 := popMin_mem q1 b q2 hp2
      have hwfa : wellFormed a = true := hwf a hm1.1
      have hwfb : wellFormed b = true := hwf b (hm1.2 b hm2.1)
      obtain ⟨t, ht, hwt⟩ :=
        ih (q2 ++ [Node.node 0 (a.freq + b.freq) a b]) (by simp)
          (by simp only [List.length_append, List.length_cons, List.length_nil]; omega)
          (by
            intro x hx
            rcases List.mem_append.mp hx with hx | hx
            · exact hwf x (hm1.2 x (hm2.2 x hx))
            · simp only [List.mem_singleton] at hx
              rw [hx]
              exact wf_node _ _ hwfa hwfb)
      refine ⟨t, ?_, hwt⟩
      simp only [huffLoopF]
      rw [if_neg h1, hp1]
      dsimp only
      rw [hp2]
      exact ht

lemma wf_huffTreeOf (input : List Nat) (h : input ≠ []) :
    wellFormed (huffTreeOf input) = true := by
  have hfreq := countFreq_ne_nil input h
  have hq : initialQueue (countFreq input) ≠ [] := by
    simp only [initialQueue, ne_eq, List.map_eq_nil_iff]
    exact hfreq
  have hlen : (initialQueue (countFreq input)).length ≤ (countFreq input).length + 1 := by
    simp [initialQueue]
  have hwf : ∀ x ∈ initialQueue (countFreq input), wellFormed x = true := by
    intro x hx
    simp only [initialQueue, List.mem_map] at hx
    obtain ⟨p, _, rfl⟩ := hx
    rfl
  obtain ⟨t, ht, hwt⟩ := huffLoopF_single (countFreq input).length _ hq hlen hwf
  unfold huffTreeOf
  rw [ht]
  exact hwt

/-! ### Tree serialization round-trip -/

lemma writeTree_acc : ∀ (t : Node) (out : List Nat), writeTree t out = out ++ writeTree t [] := by
  intro t
  induction t with
  | nil => intro out; simp [writeTree]
  | node c f l r ihl ihr =>
    intro out
    by_cases hlr : l = Node.nil ∧ r = Node.nil
    · simp [writeTree, hlr]
    · simp only [writeTree, if_neg hlr]
      rw [ihr (writeTree l (out ++ [48])), ihl (out ++ [48]),
        ihr (writeTree l ([] ++ [48])), ihl ([] ++ [48])]
      simp

lemma readTreeF_len : ∀ (fuel : Nat) (l : List Nat), (readTreeF fuel l).2.length ≤ l.length := by
  intro fuel
  induction fuel with
  | zero => intro l; cases l <;> simp [readTreeF]
  | succ fuel ih =>
    intro l
    cases l with
    | nil => simp [readTreeF]
    | cons b rest =>
      simp only [readTreeF]
      by_cases hb : b = 49
      · rw [if_pos hb]
        cases rest with
        | nil => simp
        | cons c rest2 => simp only [List.length_cons]; omega
      · rw [if_neg hb]
        calc (readTreeF fuel (readTreeF fuel rest).2).2.length
            ≤ (readTreeF fuel rest).2.length := ih _
          _ ≤ rest.length := ih rest
          _ ≤ (b :: rest).length := by simp

lemma readTreeF_stable :
    ∀ (fuel : Nat) (l : List Nat), l.length ≤ fuel →
      readTreeF (fuel + 1) l = readTreeF fuel l := by
  intro fuel
  induction fuel with
  | zero =>
    intro l hl
    have : l = [] := List.length_eq_zero.mp (Nat.le_zero.mp hl)
    subst this
    rfl
  | succ fuel ih =>
    intro l hl
    cases l with
    | nil => rfl
    | cons b rest =>
      have hrest : rest.length ≤ fuel := by
        simp only [List.length_cons] at hl
        omega
      simp only [readTreeF]
      rw [ih rest hrest, ih _ (le_trans (readTreeF_len fuel rest) hrest)]

lemma writeTree_internal (c f : Nat) (l r : Node) (h : ¬(l = Node.nil ∧ r = Node.nil))
    (out : List Nat) :
    writeTree (Node.node c f l r) out = out ++ 48 :: (writeTree l [] ++ writeTree r []) := by
  show (if l = Node.nil ∧ r = Node.nil then out ++ [49, c]
    else writeTree r (writeTree l (out ++ [48]))) = _
  rw [if_neg h, writeTree_acc r (writeTree l (out ++ [48])), writeTree_acc l (out ++ [48])]
  simp

lemma readTreeF_ge :
    ∀ (fuel : Nat) (l : List Nat), l.length ≤ fuel → readTreeF fuel l = readTree l := by
  intro fuel
  induction fuel with
  | zero =>
    intro l hl
    have : l = [] := List.length_eq_zero.mp (Nat.le_zero.mp hl)
    rw [this]
    rfl
  | succ fuel ih =>
    intro l hl
    rcases Nat.lt_or_ge l.length (fuel + 1) with hc | hc
    · have hle : l.length ≤ fuel := by omega
      rw [readTreeF_stable fuel l hle]
      exact ih l hle
    · have he : l.length = fuel + 1 := by omega
      unfold readTree
      rw [he]

lemma readTreeF_writeTree :
    ∀ (t : Node), wellFormed t = true →
      ∀ (rest : List Nat) (fuel : Nat), (writeTree t []).length + rest.length ≤ fuel →
        readTreeF fuel (writeTree t [] ++ rest) = (shapeOf t, rest) := by
  intro t
  induction t with
  | nil => intro h; simp [wellFormed] at h
  | node c f l r ihl ihr =>
    intro hwf rest fuel hfuel
    cases l with
    | nil =>
      cases r with
      | nil =>
        have hw : writeTree (Node.node c f .nil .nil) [] = [49, c] := by
          simp [writeTree]
        rw [hw] at hfuel ⊢
        cases fuel with
        | zero => simp at hfuel
        | succ fuel =>
          show readTreeF (fuel + 1) (49 :: c :: rest) = _
          simp [readTreeF, shapeOf]
      | node rc rf rl rr =>
        exfalso
        simp [wellFormed] at hwf
    | node lc lf ll lr =>
      cases r with
      | nil =>
        exfalso
        simp [wellFormed] at hwf
      | node rc rf rl rr =>
        rw [show wellFormed (Node.node c f (Node.node lc lf ll lr) (Node.node rc rf rl rr))
            = (wellFormed (Node.node lc lf ll lr) && wellFormed (Node.node rc rf rl rr)) from rfl,
          Bool.and_eq_true] at hwf
        obtain ⟨hwl, hwr⟩ := hwf
        have hw : writeTree (Node.node c f (Node.node lc lf ll lr) (Node.node rc rf rl rr)) []
            = 48 :: (writeTree (Node.node lc lf ll lr) [] ++ writeTree (Node.node rc rf rl rr) []) := by
          rw [writeTree_internal c f _ _ (by simp) []]
          rfl
        rw [hw] at hfuel ⊢
        cases fuel with
        | zero => simp at hfuel
        | succ fuel =>
          simp only [List.length_cons, List.length_append] at hfuel
          show readTreeF (fuel + 1)
            (48 :: ((writeTree (Node.node lc lf ll lr) []
              ++ writeTree (Node.node rc rf rl rr) []) ++ rest)) = _
          simp only [readTreeF]
          rw [if_neg (by decide : ¬ (48 = 49))]
          rw [List.append_assoc]
          rw [ihl hwl (writeTree (Node.node rc rf rl rr) [] ++ rest) fuel
            (by simp only [List.length_append]; omega)]
          dsimp only
          rw [ihr hwr rest fuel (by omega)]
          rfl

lemma readTree_writeTree (t : Node) (hwf : wellFormed t = true) (rest : List Nat) :
    readTree (writeTree t [] ++ rest) = (shapeOf t, rest) := by
  unfold readTree
  exact readTreeF_writeTree t hwf rest _ (by simp [List.length_append])

lemma shapeOf_ne_nil {t : Node} (h : t ≠ .nil) : shapeOf t ≠ .nil := by
  cases t with
  | nil => exact absurd rfl h
  | node c f l r => cases l <;> cases r <;> simp [shapeOf]

/-! ### Compressor layout -/

lemma compress_eq_of_ne (input : List Nat) (h : input ≠ []) :
    compress input
      = .ok (treeBytesOf input ++ 10 :: padCountOf input :: payloadOf input) := by
  unfold compress
  rw [if_neg (countFreq_ne_nil input h)]
  simp

lemma padCountOf_le (input : List Nat) : padCountOf input ≤ 7 := by
  unfold padCountOf
  omega

/-! ### Prefix-freeness of the code table -/

lemma prefB_append (s a b : List Bool) : prefB (s ++ a) (s ++ b) = prefB a b := by
  induction s with
  | nil => rfl
  | cons x s ih => simp [prefB, ih]

lemma mem_mapInsert :
    ∀ (m : List (Nat × List Bool)) (k : Nat) (v : List Bool) (p : Nat × List Bool),
      p ∈ mapInsert m k v → p = (k, v) ∨ p ∈ m := by
  intro m
  induction m with
  | nil =>
    intro k v p hp
    simp only [mapInsert, List.mem_singleton] at hp
    exact Or.inl hp
  | cons q rest ih =>
    intro k v p hp
    obtain ⟨k', v'⟩ := q
    simp only [mapInsert] at hp
    by_cases he : k' = k
    · rw [if_pos he] at hp
      rcases List.mem_cons.mp hp with h | h
      · exact Or.inl h
      · exact Or.inr (List.mem_cons_of_mem _ h)
    · rw [if_neg he] at hp
      rcases List.mem_cons.mp hp with h | h
      · exact Or.inr (h ▸ List.mem_cons_self _ _)
      · rcases ih k v p h with h | h
        · exact Or.inl h
        · exact Or.inr (List.mem_cons_of_mem _ h)

lemma mem_buildCode :
    ∀ (t : Node) (s : List Bool) (m : List (Nat × List Bool)) (p : Nat × List Bool),
      p ∈ buildCode t s m → p ∈ codesOf t s ∨ p ∈ m := by
  intro t
  induction t with
  | nil => intro s m p hp; exact Or.inr hp
  | node c f l r ihl ihr =>
    intro s m p hp
    simp only [buildCode] at hp
    rcases ihr _ _ p hp with h | h
    · left
      simp only [codesOf, List.mem_append]
      exact Or.inr h
    · rcases ihl _ _ p h with h' | h'
      · left
        simp only [codesOf, List.mem_append]
        exact Or.inl (Or.inr h')
      · by_cases hlr : l = Node.nil ∧ r = Node.nil
        · rw [if_pos hlr] at h'
          rcases mem_mapInsert m c s p h' with h'' | h''
          · left
            simp only [codesOf, List.mem_append]
            exact Or.inl (Or.inl (by rw [if_pos hlr]; simp [h'']))
          · exact Or.inr h''
        · rw [if_neg hlr] at h'
          exact Or.inr h'

lemma codesOf_extend :
    ∀ (t : Node) (s : List Bool) (k : Nat) (c : List Bool),
      (k, c) ∈ codesOf t s → ∃ u, c = s ++ u := by
  intro t
  induction t with
  | nil => intro s k c h; simp [codesOf] at h
  | node tc tf l r ihl ihr =>
    intro s k c h
    simp only [codesOf, List.mem_append] at h
    rcases h with (h | h) | h
    · by_cases hlr : l = Node.nil ∧ r = Node.nil
      · rw [if_pos hlr] at h
        simp only [List.mem_singleton, Prod.mk.injEq] at h
        exact ⟨[], by simp [h.2]⟩
      · rw [if_neg hlr] at h
        exact (List.not_mem_nil _ h).elim
    · obtain ⟨u, hu⟩ := ihl _ k c h
      exact ⟨false :: u, by rw [hu]; simp⟩
    · obtain ⟨u, hu⟩ := ihr _ k c h
      exact ⟨true :: u, by rw [hu]; simp⟩

lemma codesOf_pref :
    ∀ (t : Node) (s : List Bool) (k1 : Nat) (c1 : List Bool) (k2 : Nat) (c2 : List Bool),
      (k1, c1) ∈ codesOf t s → (k2, c2) ∈ codesOf t s → prefB c1 c2 = true →
      k1 = k2 ∧ c1 = c2 := by
  intro t
  induction t with
  | nil => intro s k1 c1 k2 c2 h1 _ _; simp [codesOf] at h1
  | node tc tf l r ihl ihr =>
    intro s k1 c1 k2 c2 h1 h2 hp
    by_cases hlr : l = Node.nil ∧ r = Node.nil
    · obtain ⟨hl, hr⟩ := hlr
      subst hl
      subst hr
      simp [codesOf] at h1 h2
      exact ⟨h1.1.trans h2.1.symm, h1.2.trans h2.2.symm⟩
    · simp only [codesOf, if_neg hlr, List.nil_append, List.mem_append] at h1 h2
      rcases h1 with h1 | h1 <;> rcases h2 with h2 | h2
      · exact ihl _ k1 c1 k2 c2 h1 h2 hp
      · exfalso
        obtain ⟨u1, hu1⟩ := codesOf_extend l _ k1 c1 h1
        obtain ⟨u2, hu2⟩ := codesOf_extend r _ k2 c2 h2
        rw [hu1, hu2, List.append_assoc, List.append_assoc, prefB_append] at hp
        simp [prefB] at hp
      · exfalso
        obtain ⟨u1, hu1⟩ := codesOf_extend r _ k1 c1 h1
        obtain ⟨u2, hu2⟩ := codesOf_extend l _ k2 c2 h2
        rw [hu1, hu2, List.append_assoc, List.append_assoc, prefB_append] at hp
        simp [prefB] at hp
      · exact ihr _ k1 c1 k2 c2 h1 h2 hp

/-! ### Claim theorems

`[97, 97, 98]` is the byte sequence "aab" (frequencies a:2, b:1, so every
queue extraction is between nodes of distinct weights and the built tree —
left child = leaf 'b' with code `0`, right child = leaf 'a' with code `1` —
does not depend on the unspecified C++ tie order).  Its artifact is
`[48, 49, 98, 49, 97, 10, 5, 192]`: tree bytes `'0' '1' 'b' '1' 'a'`, the
newline delimiter, pad count 5, one payload byte `11000000₂ = 192`.
`[97, 97, 97, 97]` is "aaaa". -/

/-- C1: the round-trip law `decompress(compress(X)) = X` FAILS on the code
for single-symbol inputs: for X = "aaaa" the single leaf gets the empty code
(huffman.cpp:45–54 assigns the root the empty path), so the artifact
`['1' 'a' '\n' 0]` carries no payload bits and decompressing it yields the
empty byte sequence, not X. -/
theorem c1_roundtrip_fails_on_single_symbol :
    compress [97, 97, 97, 97] = .ok [49, 97, 10, 0] ∧
    decompress [49, 97, 10, 0] = .ok [] ∧
    ([] : List Nat) ≠ [97, 97, 97, 97] :=
  ⟨rfl, rfl, by decide⟩

/-- C2: for the single-repeated-byte input "aaaa" the code table assigns
`'a'` the EMPTY bit string (length 0, not the claimed 1-bit code), and
decompressing the compressed artifact returns the empty sequence instead of
"aaaa": the special case the spec requires (§4.2) is absent from the code. -/
theorem c2_single_symbol_code_is_empty :
    codeTableOf [97, 97, 97, 97] = [(97, [])] ∧
    (mapFind (codeTableOf [97, 97, 97, 97]) 97).length = 0 ∧
    compress [97, 97, 97, 97] = .ok [49, 97, 10, 0] ∧
    decompress [49, 97, 10, 0] = .ok [] :=
  ⟨rfl, rfl, rfl, rfl⟩

/-- C3: the comparator `Compare` (huffman.cpp:33–37) orders nodes by
frequency ONLY: on two equal-weight leaves for distinct bytes 97 and 98 it
returns `false` both ways, so it does not implement the claimed tie-break
(numerically smaller byte first / earlier creation first); equal-weight
ordering is left to the implementation-defined behaviour of
`std::priority_queue` and `std::unordered_map` iteration. -/
theorem c3_compare_ignores_symbol_on_ties :
    Compare (Node.node 97 1 .nil .nil) (Node.node 98 1 .nil .nil) = false ∧
    Compare (Node.node 98 1 .nil .nil) (Node.node 97 1 .nil .nil) = false ∧
    (97 : Nat) ≠ 98 :=
  ⟨rfl, rfl, by decide⟩

/-- C4 counterexample: the claim's layout (pad-count byte immediately after
the serialized tree, no delimiter) is false at input "aab": the artifact's
byte at the position right after the 5 serialized tree bytes is the newline
delimiter 10, not the pad count 5, so the artifact is not
`tree ++ padCount :: payload`. -/
theorem c4_layout_counterexample :
    compress [97, 97, 98] = .ok [48, 49, 98, 49, 97, 10, 5, 192] ∧
    treeBytesOf [97, 97, 98] = [48, 49, 98, 49, 97] ∧
    padCountOf [97, 97, 98] = 5 ∧
    payloadOf [97, 97, 98] = [192] ∧
    [48, 49, 98, 49, 97, 10, 5, 192] ≠ [48, 49, 98, 49, 97] ++ 5 :: [192] :=
  ⟨rfl, rfl, rfl, rfl, by decide⟩

/-- C4 (amended): for every non-empty input the artifact is exactly the
serialized tree bytes (preorder, byte `'1'` = 49 plus the raw symbol byte per
leaf, byte `'0'` = 48 per internal node), then the single delimiter byte 10,
then one byte holding the pad count — which is between 0 and 7 — then the
packed payload bytes. -/
theorem c4_artifact_layout (input : List Nat) (h : input ≠ []) :
    compress input
      = .ok (treeBytesOf input ++ 10 :: padCountOf input :: payloadOf input) ∧
    padCountOf input ≤ 7 :=
  ⟨compress_eq_of_ne input h, padCountOf_le input⟩

/-- C4 witness: the amended layout at the concrete input "aab". -/
theorem c4_artifact_layout_witness :
    compress [97, 97, 98]
      = .ok (treeBytesOf [97, 97, 98]
          ++ 10 :: padCountOf [97, 97, 98] :: payloadOf [97, 97, 98]) ∧
    padCountOf [97, 97, 98] ≤ 7 :=
  c4_artifact_layout [97, 97, 98] (by decide)

/-- C5: compressing the empty byte sequence fails on the empty-frequency-map
error path ("Input file is empty or unreadable.", huffman.cpp:107–111) and
produces no artifact. -/
theorem c5_empty_input_rejected : compress [] = .error .emptyInput := rfl

/-- C6: removing the last payload byte of the valid artifact for "aab" does
NOT make `decompress` fail: the bit string becomes empty, the pad-drop guard
(huffman.cpp:195) silently skips, and decompress returns success with the
empty output — wrong bytes with no error signalled, contradicting the claim
that a typed failure is raised. -/
theorem c6_truncated_payload_silently_succeeds :
    compress [97, 97, 98] = .ok [48, 49, 98, 49, 97, 10, 5, 192] ∧
    decompress [48, 49, 98, 49, 97, 10, 5] = .ok [] ∧
    ([] : List Nat) ≠ [97, 97, 98] :=
  ⟨rfl, rfl, by decide⟩

/-- C7: an artifact whose pad-count byte is 200 (greater than 7 and greater
than the 8 payload bits) is NOT rejected: the guard
`extraBits > 0 && extraBits <= 8 && bitString.size() >= extraBits`
(huffman.cpp:195) merely skips the drop when it fails, and decompress
decodes all 8 bits and returns success instead of a padding error. -/
theorem c7_out_of_range_pad_count_still_decodes :
    decompress [48, 49, 98, 49, 97, 10, 200, 192]
      = .ok [97, 97, 98, 98, 98, 98, 98, 98] :=
  rfl

/-- C9: `readTree` (huffman.cpp:67–81) does NOT fail when the byte source is
exhausted mid-tree: on the one-byte source `['0']` it returns a non-null
node both of whose children are null (the failed child reads are embedded
instead of propagated), and likewise a one-armed node on `['0' '1' 'a']`;
the `if (!root)` check in decompress (huffman.cpp:175) therefore accepts
these partial trees, and decompressing `['0']` only fails later at the
pad-count read, not with a tree error. -/
theorem c9_truncated_tree_read_as_partial_success :
    readTree [48] = (Node.node 0 0 .nil .nil, []) ∧
    Node.node 0 0 Node.nil Node.nil ≠ Node.nil ∧
    readTree [48, 49, 97] = (Node.node 0 0 (Node.node 97 0 .nil .nil) .nil, []) ∧
    decompress [48] = .error .eofAfterTree :=
  ⟨rfl, by decide, rfl, rfl⟩

/-- C8: no code in the generated code table is an initial segment of the
code of another symbol: codes are root-to-leaf paths of one binary tree, a
leaf has no descendants, and distinct leaves have distinct paths. -/
theorem c8_code_table_pref_free (input : List Nat) (k1 k2 : Nat) (c1 c2 : List Bool)
    (_hne : input ≠ []) (h1 : (k1, c1) ∈ codeTableOf input)
    (h2 : (k2, c2) ∈ codeTableOf input) (hk : k1 ≠ k2) :
    prefB c1 c2 = false := by
  cases hp : prefB c1 c2
  · rfl
  · exfalso
    have h1' := mem_buildCode (huffTreeOf input) [] [] _ h1
    have h2' := mem_buildCode (huffTreeOf input) [] [] _ h2
    rcases h1' with h1' | h1'
    · rcases h2' with h2' | h2'
      · exact hk (codesOf_pref (huffTreeOf input) [] k1 c1 k2 c2 h1' h2' hp).1
      · exact (List.not_mem_nil _ h2').elim
    · exact (List.not_mem_nil _ h1').elim

/-- C8 witness: in the table for "aab", the codes of 97 (`1`) and 98 (`0`)
are not initial segments of one another. -/
theorem c8_code_table_pref_free_witness : prefB [true] [false] = false :=
  c8_code_table_pref_free [97, 97, 98] 97 98 [true] [false]
    (by decide) (by decide) (by decide) (by decide)

/-- C10: for every artifact `compress` produces, exactly one newline byte 10
separates the serialized tree from the pad-count byte, and the framing phase
of `decompress` (read tree, consume one byte iff it equals 10, read pad
count) recovers exactly the tree shape, the pad count compress wrote, and
the payload bytes compress wrote. -/
theorem c10_framing_consistency (input art : List Nat) (h : input ≠ [])
    (hc : compress input = .ok art) :
    art = treeBytesOf input ++ 10 :: padCountOf input :: payloadOf input ∧
    readFraming art
      = .ok (shapeOf (huffTreeOf input), padCountOf input, payloadOf input) := by
  rw [compress_eq_of_ne input h] at hc
  injection hc with hart
  subst hart
  refine ⟨rfl, ?_⟩
  have hrt : readTree (treeBytesOf input ++ 10 :: padCountOf input :: payloadOf input)
      = (shapeOf (huffTreeOf input), 10 :: padCountOf input :: payloadOf input) := by
    unfold treeBytesOf
    exact readTree_writeTree _ (wf_huffTreeOf input h) _
  unfold readFraming
  rw [hrt]
  rw [if_neg (shapeOf_ne_nil (wf_ne_nil (wf_huffTreeOf input h)))]

/-- C10 witness: the framing consistency at the concrete input "aab" and its
artifact. -/
theorem c10_framing_consistency_witness :
    [48, 49, 98, 49, 97, 10, 5, 192]
      = treeBytesOf [97, 97, 98]
        ++ 10 :: padCountOf [97, 97, 98] :: payloadOf [97, 97, 98] ∧
    readFraming [48, 49, 98, 49, 97, 10, 5, 192]
      = .ok (shapeOf (huffTreeOf [97, 97, 98]), padCountOf [97, 97, 98],
          payloadOf [97, 97, 98]) :=
  c10_framing_consistency [97, 97, 98] [48, 49, 98, 49, 97, 10, 5, 192]
    (by decide) rfl

end Huffman
